import Mathlib

/-!
# Verification of the hybrid retrieval engine

A shallow embedding of the retrieval core of a RAG pipeline:
the fixed-window chunker (`chunker.ts`), the semantic chunker
(`semantic-chunker.ts`), the hybrid vector/lexical ranker with Reciprocal
Rank Fusion (`vector-search.ts`) and the reranker adapter (`rerank.ts`).

Modelling conventions:
* JS strings are `List Char` (UTF-16 code-unit subtleties are out of scope);
  `jsSubstring`, `jsTrim`, `jsSplitWs`, `jsLastIndexOf` mirror the semantics
  of `String.prototype.substring` / `trim` / `split(/\s+/)` / `lastIndexOf`
  on the ASCII fragment the claims exercise.
* JS numbers used as indices and sizes are `Int` (they stay far below 2^53);
  scores are exact rationals `ℚ`, except the semantic chunker's cosine
  similarities, which live in `ℝ` because of the square root.
* JS `Map` is an association list with insert-or-update-in-place semantics
  (`mapSet`), preserving first-insertion order exactly as `Map` does.
* Database queries and external providers are oracle parameters: the vector
  stage and the lexical stage of the ranker are inputs / oracle functions,
  the sentence detector and the embedding provider of the semantic chunker
  are function parameters.  Embedding-provider invocations are counted
  explicitly in the result so that "zero embedding calls" is statable.
-/

namespace Rag

/-- The ASCII whitespace characters recognised by the model of JS `\s`
and `String.prototype.trim`. -/
def isJsWs (c : Char) : Bool :=
  c = ' ' || c = '\t' || c = '\n' || c = '\r' || c = '\x0b' || c = '\x0c'

/-- Model of `String.prototype.trim`: drop whitespace at both ends. -/
def jsTrim (l : List Char) : List Char :=
  ((l.dropWhile isJsWs).reverse.dropWhile isJsWs).reverse

/-- Model of `String.prototype.substring(a, b)`: both arguments are clamped
into `[0, length]` and swapped when given in the wrong order. -/
def jsSubstring (l : List Char) (a b : Int) : List Char :=
  let n : Int := l.length
  let a' := min (max a 0) n
  let b' := min (max b 0) n
  let lo := min a' b'
  let hi := max a' b'
  (l.drop lo.toNat).take (hi - lo).toNat

/-- Model of `String.prototype.lastIndexOf(needle)` for a non-empty needle:
the largest index at which `needle` occurs, `-1` when it does not occur. -/
def jsLastIndexOf (hay needle : List Char) : Int :=
  (List.range (hay.length + 1)).foldl
    (fun acc i => if needle.isPrefixOf (hay.drop i) then (i : Int) else acc)
    (-1)

/-- Helper for `jsSplitWs`: a whitespace character closes the current token
and opens a new one, unless it merely continues a whitespace run. -/
def splitWsCore : List Char → List (List Char)
  | [] => [[]]
  | c :: rest =>
    if isJsWs c then
      match rest with
      | [] => [[], []]
      | c2 :: _ =>
        if isJsWs c2 then splitWsCore rest else [] :: splitWsCore rest
    else
      match splitWsCore rest with
      | [] => [[c]]
      | t :: ts => (c :: t) :: ts

/-- Model of `str.split(/\s+/)`: tokens are maximal runs of non-whitespace;
leading/trailing whitespace contributes an empty token, and the empty
string splits to `[""]`, exactly as in JS. -/
def jsSplitWs (l : List Char) : List (List Char) :=
  splitWsCore l

/-- Model of the JS word-character class `\w`, i.e. `[A-Za-z0-9_]`. -/
def isWordChar (c : Char) : Bool :=
  c.isAlpha || c.isDigit || c = '_'

/-- Model of `word.replace(/[^\w]/g, "")`. -/
def stripNonWord (l : List Char) : List Char :=
  l.filter isWordChar

/-! ## JS `Map` as an association list -/

/-- `Map.prototype.get`. -/
def mapGet {α : Type} : List (String × α) → String → Option α
  | [], _ => none
  | (k', v') :: rest, k => if k' = k then some v' else mapGet rest k

/-- `Map.prototype.set`: update in place when the key exists (keeping its
insertion position), append otherwise. -/
def mapSet {α : Type} : List (String × α) → String → α → List (String × α)
  | [], k, v => [(k, v)]
  | (k', v') :: rest, k, v =>
    if k' = k then (k, v) :: rest else (k', v') :: mapSet rest k v

/-- `rrfScores.get(id) || 0`. -/
def mapGetD (m : List (String × ℚ)) (k : String) : ℚ :=
  (mapGet m k).getD 0

/-! ## Data model of `vector-search.ts` -/

/-- `SimilarChunk` as returned by the vector / lexical stages.  `metadata`
is an opaque payload. -/
structure SimilarChunk where
  id : String
  documentId : String
  content : List Char
  similarity : ℚ
deriving DecidableEq, Repr

/-- A lexical-stage row: a `SimilarChunk` together with the extra `rank`
column (`1.0` in the unscoped query, `ts_rank(...)` in the scoped one). -/
structure FtsChunk where
  chunk : SimilarChunk
  rank : ℚ
deriving DecidableEq, Repr

/-- `RankedResult`: a chunk id with its 1-based rank in one stage's list and
that stage's native score. -/
structure RankedResult where
  id : String
  rank : ℕ
  score : ℚ
deriving DecidableEq, Repr

/-- `RRF_K = 60`. -/
def RRF_K : ℚ := 60

/-- `reciprocalRankFusion`: fold both ranked lists into a JS `Map`,
adding `1 / (k + rank)` for every item. -/
def reciprocalRankFusion (rankedLists : List (List RankedResult))
    (k : ℚ := RRF_K) : List (String × ℚ) :=
  rankedLists.foldl
    (fun m rankedList =>
      rankedList.foldl
        (fun m item =>
          mapSet m item.id ((mapGet m item.id).getD 0 + 1 / (k + item.rank)))
        m)
    []

/-- `results.map((chunk, index) => ({id, rank: index + 1, score}))`,
written with an explicit starting rank to ease induction. -/
def buildRanked (startRank : ℕ) : List SimilarChunk → List RankedResult
  | [] => []
  | c :: rest => ⟨c.id, startRank, c.similarity⟩ :: buildRanked (startRank + 1) rest

/-- The same construction for the lexical-stage rows. -/
def buildRankedFts (startRank : ℕ) : List FtsChunk → List RankedResult
  | [] => []
  | c :: rest => ⟨c.chunk.id, startRank, c.rank⟩ :: buildRankedFts (startRank + 1) rest

/-- `semanticRanked` of `hybridSearch` / `hybridSearchInDocuments`. -/
def semanticRanked (sem : List SimilarChunk) : List RankedResult :=
  buildRanked 1 sem

/-- `ftsRanked` of `hybridSearch` / `hybridSearchInDocuments`. -/
def ftsRanked (fts : List FtsChunk) : List RankedResult :=
  buildRankedFts 1 fts

/-- The RRF score map computed by both hybrid-search variants. -/
def fusedScores (sem : List SimilarChunk) (fts : List FtsChunk) :
    List (String × ℚ) :=
  reciprocalRankFusion [semanticRanked sem, ftsRanked fts]

/-- The `chunkMap`: all vector-stage chunks, then every lexical-stage chunk
whose id is not yet present. -/
def chunkMapOf (sem : List SimilarChunk) (fts : List FtsChunk) :
    List (String × SimilarChunk) :=
  let m := sem.foldl (fun m c => mapSet m c.id c) []
  fts.foldl
    (fun m c => if (mapGet m c.chunk.id).isSome then m else mapSet m c.chunk.id c.chunk)
    m

/-- The fusion tail of both hybrid-search variants: map the RRF entries back
to chunks, drop misses, sort by RRF score descending (JS `sort` is stable;
the comparator is `rrfB - rrfA`), truncate to `limit`. -/
def fuseStage (sem : List SimilarChunk) (fts : List FtsChunk) (limit : ℕ) :
    List SimilarChunk :=
  let rrfScores := fusedScores sem fts
  let chunkMap := chunkMapOf sem fts
  let merged := rrfScores.filterMap (fun p => mapGet chunkMap p.1)
  (merged.mergeSort
    (fun a b => decide (mapGetD rrfScores b.id ≤ mapGetD rrfScores a.id))).take limit

/-! ## Keyword tokenization of the two hybrid-search variants -/

/-- `hybridSearch`'s keyword list:
`queryText.split(/\s+/).filter(w => w.length > 2).map(w => w.replace(/[^\w]/g, "")).filter(w => w.length > 2)`. -/
def hybridKeywords (queryText : List Char) : List (List Char) :=
  ((((jsSplitWs queryText).filter (fun w => 2 < w.length)).map
    stripNonWord).filter (fun w => 2 < w.length))

/-- `hybridSearchInDocuments`'s token list:
`queryText.split(/\s+/).filter(w => w.length > 0).map(w => w.replace(/[^\w]/g, "")).filter(w => w.length > 0)`. -/
def tsQueryTokens (queryText : List Char) : List (List Char) :=
  ((((jsSplitWs queryText).filter (fun w => 0 < w.length)).map
    stripNonWord).filter (fun w => 0 < w.length))

/-- The tsquery string of `hybridSearchInDocuments`: tokens joined with
`" & "` (the AND connective of PostgreSQL `to_tsquery`). -/
def tsQueryStr (queryText : List Char) : List Char :=
  List.intercalate (" & ".toList) (tsQueryTokens queryText)

/-- The condition imposed by the generated `ILIKE` SQL of `hybridSearch`:
one `content ILIKE '%kw%'` clause per keyword, joined with `OR`.  The
per-keyword matcher `ilike` is the database's (external) semantics. -/
def likeConditionHolds (ilike : List Char → List Char → Bool)
    (keywords : List (List Char)) (content : List Char) : Bool :=
  keywords.any (fun kw => ilike content kw)

/-! ## The two hybrid-search entry points

The two database stages are oracles: `sem` is the vector stage's response
for this query (already filtered by `minSimilarity` and scope inside the
database), and `ftsOracle` maps the keyword list (resp. the tsquery
string) to the lexical stage's response.  The returned `Bool` records
whether the lexical stage was queried at all. -/

/-- `hybridSearch` (scope-free variant). -/
def hybridSearchModel (sem : List SimilarChunk)
    (ftsOracle : List (List Char) → List FtsChunk)
    (queryText : List Char) (limit : ℕ) : List SimilarChunk × Bool :=
  let keywords := hybridKeywords queryText
  if keywords = [] then
    (sem.take limit, false)
  else
    (fuseStage sem (ftsOracle keywords) limit, true)

/-- `hybridSearchInDocuments`.  With an empty `documentIds` it delegates to
`hybridSearch`; otherwise it builds the tsquery and skips the lexical stage
when the tsquery string is empty. -/
def hybridSearchInDocumentsModel (documentIds : List String)
    (sem : List SimilarChunk)
    (ftsOracleKw : List (List Char) → List FtsChunk)
    (ftsOracleTs : List Char → List FtsChunk)
    (queryText : List Char) (limit : ℕ) : List SimilarChunk × Bool :=
  if documentIds = [] then
    hybridSearchModel sem ftsOracleKw queryText limit
  else
    let tsQuery := tsQueryStr queryText
    if tsQuery = [] then
      (sem.take limit, false)
    else
      (fuseStage sem (ftsOracleTs tsQuery) limit, true)

/-- The lexical-stage response actually consumed by `hybridSearchModel`
(empty when the keyword list is empty and the stage is skipped). -/
def usedFts (ftsOracle : List (List Char) → List FtsChunk)
    (queryText : List Char) : List FtsChunk :=
  if hybridKeywords queryText = [] then [] else ftsOracle (hybridKeywords queryText)

/-- The lexical-stage response actually consumed by
`hybridSearchInDocumentsModel` when `documentIds` is non-empty. -/
def usedFtsScoped (ftsOracleTs : List Char → List FtsChunk)
    (queryText : List Char) : List FtsChunk :=
  if tsQueryStr queryText = [] then [] else ftsOracleTs (tsQueryStr queryText)

/-! ## The fixed-window chunker (`chunker.ts`)

The `while (startIndex < text.length)` loop does not always terminate (see
the development around claim C7), so it is embedded with explicit fuel:
`none` means the fuel ran out, i.e. the source loop was still running. -/

/-- `ChunkConfig`. -/
structure ChunkConfig where
  chunkSize : Int
  chunkOverlap : Int
  separators : List (List Char)
deriving DecidableEq, Repr

/-- `DEFAULT_CHUNK_CONFIG`. -/
def DEFAULT_CHUNK_CONFIG : ChunkConfig :=
  ⟨1000, 200, ["\n\n".toList, "\n".toList, ". ".toList, " ".toList, []]⟩

/-- `TextChunk`.  `additionalMetadata` (an opaque caller payload spread into
the metadata object) is not modelled. -/
structure TextChunk where
  content : List Char
  chunkIndex : ℕ
  startChar : Int
  endChar : Int
deriving DecidableEq, Repr

/-- The separator scan: the first non-empty separator in priority order
whose last occurrence within the window sits past `chunkSize * 0.5`
(`0.5 * chunkSize < i` is rendered exactly as `chunkSize < 2 * i`) yields
the split point `startIndex + lastIndex + separator.length`. -/
def findSplitPoint (separators : List (List Char)) (window : List Char)
    (chunkSize startIndex : Int) : Option Int :=
  match separators with
  | [] => none
  | sep :: rest =>
    if sep = [] then findSplitPoint rest window chunkSize startIndex
    else
      let lastIndex := jsLastIndexOf window sep
      if chunkSize < 2 * lastIndex then
        some (startIndex + lastIndex + sep.length)
      else
        findSplitPoint rest window chunkSize startIndex

/-- The mutable state of the chunking loop. -/
structure ChunkState where
  chunks : List TextChunk
  startIndex : Int
  chunkIndex : ℕ
deriving DecidableEq, Repr

/-- The end index of the window starting at `startIndex`: the nominal end
`min(startIndex + chunkSize, len)`, snapped to a separator when the window
stops short of the end of the text and a suitable separator is found. -/
def chunkEndIndex (text : List Char) (cfg : ChunkConfig) (startIndex : Int) :
    Int :=
  let len : Int := text.length
  let endIndex0 := min (startIndex + cfg.chunkSize) len
  if endIndex0 < len then
    match findSplitPoint cfg.separators (jsSubstring text startIndex endIndex0)
        cfg.chunkSize startIndex with
    | some bestSplitPoint => bestSplitPoint
    | none => endIndex0
  else endIndex0

/-- One iteration of the `while` loop of `chunkText`. -/
def chunkStep (text : List Char) (cfg : ChunkConfig) (s : ChunkState) :
    ChunkState :=
  let endIndex := chunkEndIndex text cfg s.startIndex
  let content := jsTrim (jsSubstring text s.startIndex endIndex)
  let chunks' :=
    if 0 < content.length then
      s.chunks ++ [⟨content, s.chunkIndex, s.startIndex, endIndex⟩]
    else s.chunks
  let chunkIndex' := if 0 < content.length then s.chunkIndex + 1 else s.chunkIndex
  let nextStart := endIndex - cfg.chunkOverlap
  let startIndex' :=
    match chunks'.getLast? with
    | some lastChunk => if nextStart ≤ lastChunk.startChar then endIndex else nextStart
    | none => nextStart
  ⟨chunks', startIndex', chunkIndex'⟩

/-- The `while` loop, with fuel. -/
def chunkLoop (text : List Char) (cfg : ChunkConfig) :
    ℕ → ChunkState → Option (List TextChunk)
  | 0, _ => none
  | fuel + 1, s =>
    if s.startIndex < (text.length : Int) then
      chunkLoop text cfg fuel (chunkStep text cfg s)
    else
      some s.chunks

/-- `chunkText` (with the caller's config overrides already resolved
against the defaults). -/
def chunkText (fuel : ℕ) (text : List Char) (cfg : ChunkConfig) :
    Option (List TextChunk) :=
  if text = [] ∨ (jsTrim text).length = 0 then some []
  else chunkLoop text cfg fuel ⟨[], 0, 0⟩

/-! ## The semantic chunker (`semantic-chunker.ts`)

The sentence detector (`compromise`) and the embedding provider are
function parameters.  Scores are `ℝ` because cosine similarity divides by
square roots of norms; all the claims about this component live on the
short-circuit path, which performs no real-number computation.  The second
component of the result counts `generateEmbedding` invocations. -/

/-- `SemanticChunkConfig`. -/
structure SemanticChunkConfig where
  maxChunkSize : Int
  minChunkSize : Int
  similarityThreshold : ℝ
  sentenceWindow : Int

/-- `DEFAULT_SEMANTIC_CONFIG`. -/
noncomputable def DEFAULT_SEMANTIC_CONFIG : SemanticChunkConfig :=
  ⟨1500, 200, 0.75, 3⟩

/-- `SemanticChunk` (with its metadata fields inlined;
`additionalMetadata` is again an opaque payload, not modelled). -/
structure SemanticChunk where
  content : List Char
  chunkIndex : ℕ
  sentenceCount : ℕ
  avgSimilarity : ℝ

/-- `cosineSimilarity`: dimension check, then
`dot(a,b) / (sqrt(Σ aᵢ²) * sqrt(Σ bᵢ²))`. -/
noncomputable def cosineSimilarity (a b : List ℝ) : Except String ℝ :=
  if a.length ≠ b.length then .error "Vectors must have the same length"
  else
    let dotProduct := ((a.zip b).map (fun p => p.1 * p.2)).sum
    let normA := (a.map (fun x => x * x)).sum
    let normB := (b.map (fun x => x * x)).sum
    .ok (dotProduct / (Real.sqrt normA * Real.sqrt normB))

/-- `splitIntoSentences`: the external sentence detector, then
`.filter(s => s.trim().length > 0)`. -/
def splitIntoSentences (detect : List Char → List (List Char))
    (text : List Char) : List (List Char) :=
  (detect text).filter (fun s => 0 < (jsTrim s).length)

/-- `embeddings[j]` for a JS index that may be out of range (an undefined
entry makes the similarity computation throw). -/
def getEmbeddingAt (embeddings : List (List ℝ)) (j : Int) :
    Except String (List ℝ) :=
  if h : 0 ≤ j ∧ j.toNat < embeddings.length then
    .ok (embeddings.get ⟨j.toNat, h.2⟩)
  else .error "undefined embedding"

/-- Finalisation of the current chunk: joined with a space, trimmed, with
the mean of the accumulated step similarities (`1.0` when there were no
internal comparisons). -/
noncomputable def finalizeChunk (currentChunk : List (List Char))
    (chunkIndex : ℕ) (similarities : List ℝ) : SemanticChunk :=
  ⟨jsTrim (List.intercalate [' '] currentChunk), chunkIndex,
    currentChunk.length,
    if similarities ≠ [] then similarities.sum / similarities.length else 1⟩

/-- The greedy grouping loop of `semanticChunk` (`for (let i = 1; ...)`),
recursing over the remaining sentences; `i` is the index of the sentence
under consideration. -/
noncomputable def semanticLoop (embeddings : List (List ℝ))
    (cfg : SemanticChunkConfig) :
    List (List Char) → ℕ → List (List Char) → Int → ℕ → List ℝ →
      List SemanticChunk → Except String (List SemanticChunk)
  | [], _, currentChunk, _, chunkIndex, similarities, chunks =>
    if currentChunk ≠ [] then
      .ok (chunks ++ [finalizeChunk currentChunk chunkIndex similarities])
    else .ok chunks
  | sentence :: rest, i, currentChunk, currentSize, chunkIndex, similarities,
      chunks => do
    let sentenceLength : Int := sentence.length
    let lookbackStart : Int := max 0 ((currentChunk.length : Int) - cfg.sentenceWindow)
    let recentLen : ℕ := currentChunk.length - lookbackStart.toNat
    let total ← (List.range recentLen).foldlM
      (fun acc idx => do
        let e1 ← getEmbeddingAt embeddings i
        let e2 ← getEmbeddingAt embeddings
          ((i : Int) - currentChunk.length + lookbackStart + idx)
        let c ← cosineSimilarity e1 e2
        pure (acc + c))
      (0 : ℝ)
    let avgSimilarity : ℝ := total / recentLen
    let similarities' := similarities ++ [avgSimilarity]
    let wouldExceedMax := cfg.maxChunkSize < currentSize + sentenceLength
    let isSimilar := cfg.similarityThreshold ≤ avgSimilarity
    let meetsMinSize := cfg.minChunkSize ≤ currentSize
    if wouldExceedMax ∨ (¬ isSimilar ∧ meetsMinSize) then
      semanticLoop embeddings cfg rest (i + 1) [sentence] sentenceLength
        (chunkIndex + 1) []
        (chunks ++ [finalizeChunk currentChunk chunkIndex similarities'])
    else
      semanticLoop embeddings cfg rest (i + 1) (currentChunk ++ [sentence])
        (currentSize + sentenceLength) chunkIndex similarities' chunks

/-- `semanticChunk`.  Returns the chunk list together with the number of
`generateEmbedding` calls made (the batching of those calls is
order-preserving, so its net effect is one embedding per sentence, in
order). -/
noncomputable def semanticChunk (detect : List Char → List (List Char))
    (embed : List Char → List ℝ) (text : List Char)
    (config : SemanticChunkConfig) :
    Except String (List SemanticChunk × ℕ) :=
  if text = [] ∨ (jsTrim text).length = 0 then .ok ([], 0)
  else
    let sentences := splitIntoSentences detect text
    if sentences = [] then .ok ([], 0)
    else if (text.length : Int) ≤ config.maxChunkSize then
      .ok ([⟨jsTrim text, 0, sentences.length, 1⟩], 0)
    else
      let embeddings := sentences.map embed
      match sentences with
      | [] => .ok ([], 0)
      | s0 :: rest =>
        (semanticLoop embeddings config rest 1 [s0] s0.length 0 [] []).map
          (fun cs => (cs, sentences.length))

/-! ## The reranker adapter (`rerank.ts`) -/

/-- One entry of the external reranking service's response. -/
structure RerankResult where
  index : ℕ
  relevanceScore : ℚ
deriving DecidableEq, Repr

/-- What happened at the external boundary of `rerankChunks`: the API key
was absent, the service call threw, or it answered. -/
inductive RerankOutcome where
  | noKey : RerankOutcome
  | failure : RerankOutcome
  | success : List RerankResult → RerankOutcome
deriving DecidableEq, Repr

/-- `RerankedChunk`. -/
structure RerankedChunk where
  chunk : SimilarChunk
  rerankScore : ℚ
  originalSimilarity : ℚ
deriving DecidableEq, Repr

/-- The graceful-degradation result: the first `topN` chunks in original
order, each scored by its own similarity. -/
def rerankFallback (chunks : List SimilarChunk) (topN : ℕ) :
    List RerankedChunk :=
  (chunks.take topN).map (fun c => ⟨c, c.similarity, c.similarity⟩)

/-- `rerankChunks`.  `query` is only forwarded to the external service.  A
service response indexing outside `chunks` makes the JS mapping throw
inside the `try`, landing in the same `catch` fallback as a failed call. -/
def rerankChunks (query : List Char) (chunks : List SimilarChunk)
    (topN : ℕ) (outcome : RerankOutcome) : List RerankedChunk :=
  if chunks = [] then []
  else if chunks.length ≤ topN then
    chunks.map (fun c => ⟨c, c.similarity, c.similarity⟩)
  else
    match outcome with
    | .noKey => rerankFallback chunks topN
    | .failure => rerankFallback chunks topN
    | .success results =>
      if results.all (fun r => r.index < chunks.length) then
        results.map (fun r =>
          let originalChunk := chunks.getD r.index ⟨"", "", [], 0⟩
          ⟨{ originalChunk with similarity := r.relevanceScore },
            r.relevanceScore, originalChunk.similarity⟩)
      else rerankFallback chunks topN


/-! ## Spec-side definitions (used only to compare against the code) -/

/-- Modelled from the spec: the keyword list as the spec describes it for
both variants — "tokenize `queryText` into keywords (strip non-word
characters, drop tokens ≤ 2 characters)". -/
def claimKeywords (queryText : List Char) : List (List Char) :=
  ((jsSplitWs queryText).map stripNonWord).filter (fun w => 2 < w.length)

/-- Modelled from the spec: a token list that keeps every token non-empty
after stripping (what `hybridSearchInDocuments` actually computes). -/
def scopedKeywords (queryText : List Char) : List (List Char) :=
  ((jsSplitWs queryText).map stripNonWord).filter (fun w => 0 < w.length)

/-- The contribution of one ranked list to an id's RRF score: the sum of
`1 / (k + rank)` over the entries carrying that id. -/
def rrfContribution (k : ℚ) (l : List RankedResult) (id : String) : ℚ :=
  ((l.filter (fun it => it.id = id)).map (fun it => 1 / (k + (it.rank : ℚ)))).sum

/-- Modelled from the spec: `1 / (k + rank)` when the id occurs in a stage
whose ids are the given list (rank = `start` + 0-based first position),
`0` when it does not occur. -/
def positionScore (k : ℚ) (start : ℕ) (ids : List String) (id : String) : ℚ :=
  match ids.findIdx? (fun x => x = id) with
  | some i => 1 / (k + start + i)
  | none => 0

/-- Modelled from the spec: "fused score for a chunkId = Σ over stages
containing it of 1/(k + rank)", `k = 60`, rank = 1-based position in the
stage list. -/
def specFusedScore (sem : List SimilarChunk) (fts : List FtsChunk)
    (id : String) : ℚ :=
  positionScore 60 1 (sem.map (·.id)) id +
    positionScore 60 1 (fts.map (·.chunk.id)) id

/-- The lexical-stage response consumed by `hybridSearchInDocumentsModel`
(accounting for the delegation to `hybridSearchModel` on empty scope). -/
def usedFtsInDocuments (documentIds : List String)
    (ftsOracleKw : List (List Char) → List FtsChunk)
    (ftsOracleTs : List Char → List FtsChunk)
    (queryText : List Char) : List FtsChunk :=
  if documentIds = [] then usedFts ftsOracleKw queryText
  else usedFtsScoped ftsOracleTs queryText

/-- The output contract of the hybrid ranker: length at most `limit`, no
duplicate chunk ids, sorted by fused score in descending order. -/
def rankedOutputContract (out : List SimilarChunk)
    (scores : List (String × ℚ)) (limit : ℕ) : Prop :=
  out.length ≤ limit ∧
    out.Pairwise (fun a b => a.id ≠ b.id) ∧
    out.Pairwise (fun a b => mapGetD scores b.id ≤ mapGetD scores a.id)

/-! # Theorems -/

theorem mapGet_mapSet {α : Type} (m : List (String × α)) (k k' : String)
    (v : α) :
    mapGet (mapSet m k v) k' = if k = k' then some v else mapGet m k' := by
  induction m with
  | nil =>
    by_cases h : k = k' <;> simp [mapSet, mapGet, h]
  | cons p rest ih =>
    obtain ⟨a, b⟩ := p
    by_cases hak : a = k
    · subst hak
      by_cases h : a = k' <;> simp [mapSet, mapGet, h]
    · simp only [mapSet, if_neg hak, mapGet]
      by_cases h : a = k'
      · subst h
        have hk : ¬ k = a := fun hh => hak hh.symm
        simp [mapGet, hk]
      · simp [h, ih]

theorem mem_mapSet {α : Type} (m : List (String × α)) (k : String) (v : α)
    (p : String × α) (hp : p ∈ mapSet m k v) : p = (k, v) ∨ p ∈ m := by
  induction m with
  | nil => simpa [mapSet] using hp
  | cons q rest ih =>
    obtain ⟨a, b⟩ := q
    by_cases hak : a = k
    · subst hak
      simp only [mapSet, if_pos rfl] at hp
      rcases List.mem_cons.mp hp with hm | hm
      · exact Or.inl hm
      · exact Or.inr (List.mem_cons_of_mem _ hm)
    · simp only [mapSet, if_neg hak] at hp
      rcases List.mem_cons.mp hp with hm | hm
      · exact Or.inr (by simp [hm])
      · rcases ih hm with h' | h'
        · exact Or.inl h'
        · exact Or.inr (List.mem_cons_of_mem _ h')

/-- The keys of `mapSet m k v` are the old keys when `k` was present,
otherwise the old keys with `k` appended. -/
theorem keys_mapSet {α : Type} (m : List (String × α)) (k : String) (v : α) :
    (mapSet m k v).map Prod.fst =
      if k ∈ m.map Prod.fst then m.map Prod.fst else m.map Prod.fst ++ [k] := by
  induction m with
  | nil => simp [mapSet]
  | cons p rest ih =>
    obtain ⟨a, b⟩ := p
    by_cases hak : a = k
    · subst hak
      simp [mapSet]
    · have hk : ¬ k = a := fun hh => hak hh.symm
      simp only [mapSet, if_neg hak, List.map_cons, List.mem_cons, hk,
        false_or, ih]
      by_cases hmem : k ∈ rest.map Prod.fst <;> simp [hmem]

theorem nodup_keys_mapSet {α : Type} (m : List (String × α)) (k : String)
    (v : α) (h : (m.map Prod.fst).Nodup) :
    ((mapSet m k v).map Prod.fst).Nodup := by
  rw [keys_mapSet]
  by_cases hmem : k ∈ m.map Prod.fst
  · simpa [hmem] using h
  · simpa [hmem, List.nodup_append] using h

/-! ## Claim C8: graceful degradation of the reranker -/

/-- C8: `rerankChunks` never raises; whenever the chunk list is longer than
`topN` and the external call fails or the credentials are missing, it
returns exactly the first `topN` input chunks in their original order, each
with `rerankScore` equal to the chunk's original similarity. -/
theorem rerankChunks_degrades_gracefully (query : List Char)
    (chunks : List SimilarChunk) (topN : ℕ) (outcome : RerankOutcome)
    (htop : topN < chunks.length)
    (hout : outcome = RerankOutcome.noKey ∨ outcome = RerankOutcome.failure) :
    rerankChunks query chunks topN outcome =
      (chunks.take topN).map (fun c => ⟨c, c.similarity, c.similarity⟩) := by
  have hne : chunks ≠ [] := by
    intro h
    rw [h] at htop
    exact absurd htop (by simp)
  have hlen : ¬ chunks.length ≤ topN := by omega
  rcases hout with h | h <;> subst h <;>
    simp [rerankChunks, hne, hlen, rerankFallback]

/-- Witness for C8 at a concrete input: two chunks, `topN = 1`, failing
provider. -/
theorem rerankChunks_degrades_gracefully_witness :
    (1 < ([⟨"a", "d", [], 3⟩, ⟨"b", "d", [], 2⟩] : List SimilarChunk).length)
      ∧ rerankChunks [] [⟨"a", "d", [], 3⟩, ⟨"b", "d", [], 2⟩] 1
          RerankOutcome.failure = [⟨⟨"a", "d", [], 3⟩, 3, 3⟩] :=
  ⟨by decide,
    by
      rw [rerankChunks_degrades_gracefully [] _ 1 RerankOutcome.failure
        (by decide) (Or.inr rfl)]
      decide⟩

/-! ## Claim C9: the zero-keyword skip path of hybrid search -/

/-- C9: in both hybrid-search variants, a query text with zero surviving
keywords yields the vector-stage results truncated to `limit`, in their
original order, and the lexical stage is never queried (`false` flag). -/
theorem hybridSearch_zero_keywords :
    (∀ (sem : List SimilarChunk) (ftsOracle : List (List Char) → List FtsChunk)
        (queryText : List Char) (limit : ℕ),
      hybridKeywords queryText = [] →
        hybridSearchModel sem ftsOracle queryText limit = (sem.take limit, false))
    ∧ (∀ (documentIds : List String) (sem : List SimilarChunk)
        (ftsOracleKw : List (List Char) → List FtsChunk)
        (ftsOracleTs : List Char → List FtsChunk)
        (queryText : List Char) (limit : ℕ),
      hybridKeywords queryText = [] → tsQueryTokens queryText = [] →
        hybridSearchInDocumentsModel documentIds sem ftsOracleKw ftsOracleTs
          queryText limit = (sem.take limit, false)) := by
  constructor
  · intro sem ftsOracle queryText limit hkw
    simp [hybridSearchModel, hkw]
  · intro documentIds sem ftsOracleKw ftsOracleTs queryText limit hkw hts
    by_cases hdoc : documentIds = []
    · simp [hybridSearchInDocumentsModel, hdoc, hybridSearchModel, hkw]
    · have hq : tsQueryStr queryText = [] := by
        simp [tsQueryStr, hts, List.intercalate]
      simp [hybridSearchInDocumentsModel, hdoc, hq]

/-- Witness for C9: the query `"!!"` survives neither tokenizer; both
variants return the truncated vector-stage list and skip the lexical
stage. -/
theorem hybridSearch_zero_keywords_witness :
    hybridKeywords ("!!".toList) = [] ∧ tsQueryTokens ("!!".toList) = [] ∧
    hybridSearchModel [⟨"a", "d", [], 1⟩] (fun _ => []) ("!!".toList) 5 =
      ([⟨"a", "d", [], 1⟩], false) ∧
    hybridSearchInDocumentsModel ["doc1"] [⟨"a", "d", [], 1⟩] (fun _ => [])
        (fun _ => []) ("!!".toList) 5 = ([⟨"a", "d", [], 1⟩], false) :=
  ⟨by decide, by decide,
    by
      rw [hybridSearch_zero_keywords.1 [⟨"a", "d", [], 1⟩] (fun _ => [])
        ("!!".toList) 5 (by decide)]
      rfl,
    by
      rw [hybridSearch_zero_keywords.2 ["doc1"] [⟨"a", "d", [], 1⟩]
        (fun _ => []) (fun _ => []) ("!!".toList) 5 (by decide) (by decide)]
      rfl⟩

/-! ## Claim C5: keyword tokenization of the two variants -/

/-- Filtering raw tokens by length before stripping is absorbed by the
filter on stripped length, because stripping never lengthens a token. -/
theorem filter_strip_filter (l : List (List Char)) (n : ℕ) :
    ((l.filter (fun w => n < w.length)).map stripNonWord).filter
        (fun w => n < w.length) =
      (l.map stripNonWord).filter (fun w => n < w.length) := by
  induction l with
  | nil => simp
  | cons w rest ih =>
    by_cases h1 : n < w.length
    · simp only [List.filter_cons, List.map_cons]
      by_cases h2 : n < (stripNonWord w).length <;> simp [h1, h2, ih]
    · have h2 : ¬ n < (stripNonWord w).length := by
        have := List.length_filter_le isWordChar w
        simp only [stripNonWord]
        omega
      simp [h1, h2, ih]

/-- C5 counterexample: for the query `"ab cd"` the claimed keyword list
(length ≤ 2 dropped) is empty, yet the document-scoped variant keeps both
tokens, builds the AND-tsquery `"ab & cd"`, and does query its lexical
stage. -/
theorem scoped_keywords_counterexample :
    claimKeywords ("ab cd".toList) = [] ∧
    tsQueryTokens ("ab cd".toList) = ["ab".toList, "cd".toList] ∧
    tsQueryStr ("ab cd".toList) = "ab & cd".toList ∧
    (hybridSearchInDocumentsModel ["doc1"] [] (fun _ => []) (fun _ => [])
      ("ab cd".toList) 5).2 = true := by
  refine ⟨by decide, by decide, by decide, ?_⟩
  have hdoc : (["doc1"] : List String) ≠ [] := by decide
  have hq : tsQueryStr ['a', 'b', ' ', 'c', 'd'] ≠ [] := by decide
  simp [hybridSearchInDocumentsModel, hdoc, hq]

/-- C5 (amended): the unscoped `hybridSearch` does use the claimed keyword
list (whitespace tokens, non-word characters stripped, length ≤ 2 dropped;
matched as a disjunction of `ILIKE` clauses), but the document-scoped
variant keeps every token that is non-empty after stripping and joins them
with `" & "` into one AND-semantics tsquery. -/
theorem hybridSearch_keyword_lists (queryText : List Char) :
    hybridKeywords queryText = claimKeywords queryText ∧
    tsQueryTokens queryText = scopedKeywords queryText ∧
    tsQueryStr queryText =
      List.intercalate (" & ".toList) (scopedKeywords queryText) := by
  refine ⟨?_, ?_, ?_⟩
  · exact filter_strip_filter (jsSplitWs queryText) 2
  · exact filter_strip_filter (jsSplitWs queryText) 0
  · rw [tsQueryStr, tsQueryTokens, filter_strip_filter (jsSplitWs queryText) 0]
    rfl

/-! ## Claims C6 and C4: the semantic chunker's short-circuit -/

/-- Shared short-circuit evaluation of `semanticChunk`: a non-blank text
with at least one detected sentence and length at most `maxChunkSize`
yields a single trimmed chunk with similarity `1.0` and zero embedding
calls, whatever the rest of the configuration says. -/
theorem semanticChunk_shortCircuit (detect : List Char → List (List Char))
    (embed : List Char → List ℝ) (text : List Char)
    (cfg : SemanticChunkConfig) (h1 : jsTrim text ≠ [])
    (h2 : splitIntoSentences detect text ≠ [])
    (h3 : (text.length : Int) ≤ cfg.maxChunkSize) :
    semanticChunk detect embed text cfg =
      .ok ([⟨jsTrim text, 0, (splitIntoSentences detect text).length, 1⟩], 0) := by
  have htext : text ≠ [] := by
    intro h
    exact h1 (by simp [h, jsTrim])
  simp [semanticChunk, h2, h3, htext, h1]

/-- C6: for every non-blank text with at least one detected sentence and
length ≤ `maxChunkSize`, `semanticChunk` returns exactly one chunk whose
content is the trimmed text, with `avgSimilarity = 1.0`, and performs zero
embedding-provider calls. -/
theorem semanticChunk_single_chunk (detect : List Char → List (List Char))
    (embed : List Char → List ℝ) (text : List Char)
    (cfg : SemanticChunkConfig) (h1 : jsTrim text ≠ [])
    (h2 : splitIntoSentences detect text ≠ [])
    (h3 : (text.length : Int) ≤ cfg.maxChunkSize) :
    semanticChunk detect embed text cfg =
      .ok ([⟨jsTrim text, 0, (splitIntoSentences detect text).length, 1⟩], 0) :=
  semanticChunk_shortCircuit detect embed text cfg h1 h2 h3

/-- Witness for C6 at a concrete input: `"Hi."` with a one-sentence
detector and the default configuration. -/
theorem semanticChunk_single_chunk_witness :
    jsTrim ("Hi.".toList) ≠ [] ∧
    splitIntoSentences (fun _ => [" Hi.".toList]) ("Hi.".toList) ≠ [] ∧
    (("Hi.".toList.length : Int) ≤ DEFAULT_SEMANTIC_CONFIG.maxChunkSize) ∧
    semanticChunk (fun _ => [" Hi.".toList]) (fun _ => []) ("Hi.".toList)
        DEFAULT_SEMANTIC_CONFIG =
      .ok ([⟨jsTrim ("Hi.".toList), 0,
        (splitIntoSentences (fun _ => [" Hi.".toList]) ("Hi.".toList)).length,
        1⟩], 0) :=
  ⟨by decide, by decide, by decide,
    semanticChunk_single_chunk (fun _ => [" Hi.".toList]) (fun _ => [])
      ("Hi.".toList) DEFAULT_SEMANTIC_CONFIG (by decide) (by decide) (by decide)⟩

/-- C4 counterexample: a configuration with `minChunkSize > maxChunkSize`
does not make `semanticChunk` fail with a validation error — the call
proceeds and produces a chunk. -/
theorem semanticChunk_no_validation_counterexample :
    ((⟨100, 500, 0.75, 1⟩ : SemanticChunkConfig).maxChunkSize <
        (⟨100, 500, 0.75, 1⟩ : SemanticChunkConfig).minChunkSize) ∧
    semanticChunk (fun _ => ["Hello.".toList]) (fun _ => []) ("Hello.".toList)
        ⟨100, 500, 0.75, 1⟩ =
      .ok ([⟨"Hello.".toList, 0, 1, 1⟩], 0) :=
  ⟨by decide,
    by
      have h := semanticChunk_shortCircuit (fun _ => ["Hello.".toList])
        (fun _ => []) ("Hello.".toList) ⟨100, 500, 0.75, 1⟩
        (by decide) (by decide) (by decide)
      simpa using h⟩

/-- C4 (amended): `semanticChunk` performs no `minChunkSize ≤ maxChunkSize`
validation; a call whose configuration has `minChunkSize > maxChunkSize`
proceeds to produce chunks exactly as usual (here shown on the
short-circuit path). -/
theorem semanticChunk_no_minmax_validation
    (detect : List Char → List (List Char)) (embed : List Char → List ℝ)
    (text : List Char) (cfg : SemanticChunkConfig)
    (hbad : cfg.maxChunkSize < cfg.minChunkSize) (h1 : jsTrim text ≠ [])
    (h2 : splitIntoSentences detect text ≠ [])
    (h3 : (text.length : Int) ≤ cfg.maxChunkSize) :
    semanticChunk detect embed text cfg =
      .ok ([⟨jsTrim text, 0, (splitIntoSentences detect text).length, 1⟩], 0) :=
  semanticChunk_shortCircuit detect embed text cfg h1 h2 h3

/-- Witness for the amended C4 at a concrete input. -/
theorem semanticChunk_no_minmax_validation_witness :
    ((⟨50, 800, 0.75, 2⟩ : SemanticChunkConfig).maxChunkSize <
        (⟨50, 800, 0.75, 2⟩ : SemanticChunkConfig).minChunkSize) ∧
    semanticChunk (fun _ => ["Hey.".toList]) (fun _ => []) ("Hey.".toList)
        ⟨50, 800, 0.75, 2⟩ =
      .ok ([⟨jsTrim ("Hey.".toList), 0,
        (splitIntoSentences (fun _ => ["Hey.".toList]) ("Hey.".toList)).length,
        1⟩], 0) :=
  ⟨by decide,
    semanticChunk_no_minmax_validation (fun _ => ["Hey.".toList]) (fun _ => [])
      ("Hey.".toList) ⟨50, 800, 0.75, 2⟩ (by decide) (by decide) (by decide)
      (by decide)⟩

/-! ## Claim C3: short texts and the fixed-window chunker -/

/-- `text.substring(0, text.length)` is the whole text. -/
theorem jsSubstring_full (l : List Char) :
    jsSubstring l 0 (l.length : Int) = l := by
  have hn : (0 : Int) ≤ (l.length : Int) := Int.natCast_nonneg _
  simp [jsSubstring, max_eq_left hn, min_eq_left hn, min_eq_right hn]

/-- C3 counterexample: `"abcdefgh"` (8 characters, no whitespace) with
`chunkSize = 10 > 8` and `chunkOverlap = 3` produces two chunks, not one —
the overlap re-enters the text and emits the tail `"fgh"` again. -/
theorem chunkText_short_text_counterexample :
    ("abcdefgh".toList ≠ [] ∧ jsTrim ("abcdefgh".toList) = "abcdefgh".toList ∧
      (("abcdefgh".toList.length : Int) < 10)) ∧
    chunkText 10 ("abcdefgh".toList) ⟨10, 3, DEFAULT_CHUNK_CONFIG.separators⟩ =
      some [⟨"abcdefgh".toList, 0, 0, 8⟩, ⟨"fgh".toList, 1, 5, 8⟩] := by
  exact ⟨⟨by decide, by decide, by decide⟩, by decide⟩

/-- C3 (amended): for a non-blank text shorter than `chunkSize`,
`chunkText` emits the whole trimmed text as its first chunk, and it is the
only chunk provided additionally `chunkOverlap = 0` or the text is no
longer than `chunkOverlap` (otherwise the overlap can re-enter the text
and emit a second tail chunk, as the counterexample shows). -/
theorem chunkText_short_text (text : List Char) (cfg : ChunkConfig)
    (h1 : jsTrim text ≠ []) (h2 : (text.length : Int) < cfg.chunkSize)
    (h3 : cfg.chunkOverlap = 0 ∨ (text.length : Int) ≤ cfg.chunkOverlap) :
    ∀ fuel : ℕ, chunkText (fuel + 2) text cfg =
      some [⟨jsTrim text, 0, 0, (text.length : Int)⟩] := by
  intro fuel
  have htext : text ≠ [] := fun h => h1 (by simp [h, jsTrim])
  have hlen : 0 < text.length := List.length_pos.mpr htext
  have hlen' : (0 : Int) < (text.length : Int) := by exact_mod_cast hlen
  have hcond : ¬ (text = [] ∨ (jsTrim text).length = 0) := by
    push_neg
    exact ⟨htext, by simpa [List.length_eq_zero] using h1⟩
  have hstep : chunkStep text cfg ⟨[], 0, 0⟩ =
      ⟨[⟨jsTrim text, 0, 0, (text.length : Int)⟩], (text.length : Int), 1⟩ := by
    have hle : (text.length : Int) ≤ cfg.chunkSize := le_of_lt h2
    have hmin : min cfg.chunkSize (text.length : Int) = (text.length : Int) :=
      min_eq_right hle
    have hnlt : ¬ cfg.chunkSize < (text.length : Int) := not_lt.mpr hle
    have hc : 0 < (jsTrim text).length := List.length_pos.mpr h1
    have hend : chunkEndIndex text cfg 0 = (text.length : Int) := by
      simp [chunkEndIndex, hmin, hnlt]
    rcases h3 with h3 | h3
    · have hne : ¬ (text.length : Int) ≤ 0 := not_le.mpr hlen'
      simp [chunkStep, hend, hmin, hnlt, jsSubstring_full, hc, h3, hne]
    · have hg1 : (text.length : Int) - cfg.chunkOverlap ≤ 0 := by omega
      have hg2 : (text.length : Int) ≤ 0 + cfg.chunkOverlap := by omega
      simp [chunkStep, hend, hmin, hnlt, jsSubstring_full, hc, hg1, hg2]
  rw [chunkText, if_neg hcond]
  show chunkLoop text cfg (fuel + 1 + 1) ⟨[], 0, 0⟩ = _
  rw [chunkLoop]
  rw [if_pos (by exact hlen')]
  rw [hstep, chunkLoop]
  rw [if_neg (by exact lt_irrefl _)]

/-- Witness for the amended C3: `"hello world"` under the default
configuration (11 ≤ 200 = `chunkOverlap`). -/
theorem chunkText_short_text_witness :
    jsTrim ("hello world".toList) ≠ [] ∧
    (("hello world".toList.length : Int) < DEFAULT_CHUNK_CONFIG.chunkSize) ∧
    (("hello world".toList.length : Int) ≤ DEFAULT_CHUNK_CONFIG.chunkOverlap) ∧
    chunkText 2 ("hello world".toList) DEFAULT_CHUNK_CONFIG =
      some [⟨jsTrim ("hello world".toList), 0, 0, ("hello world".toList.length : Int)⟩] :=
  ⟨by decide, by decide, by decide,
    chunkText_short_text ("hello world".toList) DEFAULT_CHUNK_CONFIG
      (by decide) (by decide) (Or.inr (by decide)) 0⟩

/-! ## Claim C7: the chunking loop does not always advance -/

/-- A state the loop step maps to itself while still inside the text keeps
the loop running for ever, whatever the fuel. -/
theorem chunkLoop_of_fixpoint (text : List Char) (cfg : ChunkConfig)
    (s : ChunkState) (hfix : chunkStep text cfg s = s)
    (hlt : s.startIndex < (text.length : Int)) :
    ∀ fuel : ℕ, chunkLoop text cfg fuel s = none := by
  intro fuel
  induction fuel with
  | zero => rfl
  | succ n ih =>
    rw [chunkLoop, if_pos hlt, hfix]
    exact ih

/-- C7: the loop of `chunkText` does **not** strictly advance `startIndex`
on every iteration.  On `"abcd    "` with `chunkSize = 10` and
`chunkOverlap = 3` the second iteration trims its window to the empty
string, pushes nothing, and recomputes `startIndex = 5` for ever: the
source loop never terminates (here: `none` for every amount of fuel). -/
theorem chunkText_nontermination :
    ∀ fuel : ℕ,
      chunkText fuel ("abcd    ".toList) ⟨10, 3, DEFAULT_CHUNK_CONFIG.separators⟩ =
        none := by
  intro fuel
  have hcond : ¬ ("abcd    ".toList = [] ∨ (jsTrim ("abcd    ".toList)).length = 0) := by
    decide
  rw [chunkText, if_neg hcond]
  cases fuel with
  | zero => rfl
  | succ n =>
    rw [chunkLoop, if_pos (by decide)]
    have hstep : chunkStep ("abcd    ".toList) ⟨10, 3, DEFAULT_CHUNK_CONFIG.separators⟩
        ⟨[], 0, 0⟩ = ⟨[⟨"abcd".toList, 0, 0, 8⟩], 5, 1⟩ := by decide
    rw [hstep]
    exact chunkLoop_of_fixpoint _ _ _ (by decide) (by decide) n

/-! ## Claim C10: per-chunk invariants of the fixed-window chunker -/

/-- One loop iteration preserves the output invariant: every accumulated
chunk holds the trimmed text of its own window and is non-empty, and the
chunk indices are `0, 1, …` with the running counter equal to the number of
chunks. -/
theorem chunkStep_invariant (text : List Char) (cfg : ChunkConfig)
    (s : ChunkState)
    (hgood : ∀ c ∈ s.chunks,
      c.content = jsTrim (jsSubstring text c.startChar c.endChar) ∧
        c.content ≠ [])
    (hidx : s.chunks.map (fun c => c.chunkIndex) = List.range s.chunks.length)
    (hcount : s.chunkIndex = s.chunks.length) :
    (∀ c ∈ (chunkStep text cfg s).chunks,
      c.content = jsTrim (jsSubstring text c.startChar c.endChar) ∧
        c.content ≠ []) ∧
    (chunkStep text cfg s).chunks.map (fun c => c.chunkIndex) =
      List.range (chunkStep text cfg s).chunks.length ∧
    (chunkStep text cfg s).chunkIndex = (chunkStep text cfg s).chunks.length := by
  by_cases hpush :
      0 < (jsTrim (jsSubstring text s.startIndex
        (chunkEndIndex text cfg s.startIndex))).length
  · have hchunks : (chunkStep text cfg s).chunks =
        s.chunks ++ [⟨jsTrim (jsSubstring text s.startIndex
          (chunkEndIndex text cfg s.startIndex)), s.chunkIndex, s.startIndex,
          chunkEndIndex text cfg s.startIndex⟩] := by
      simp [chunkStep, hpush]
    have hcnt : (chunkStep text cfg s).chunkIndex = s.chunkIndex + 1 := by
      simp [chunkStep, hpush]
    refine ⟨?_, ?_, ?_⟩
    · intro c hc
      rw [hchunks] at hc
      rcases List.mem_append.mp hc with hmem | hmem
      · exact hgood c hmem
      · rcases List.mem_singleton.mp hmem with rfl
        exact ⟨rfl, by simpa [← List.length_pos] using hpush⟩
    · rw [hchunks]
      simp only [List.map_append, List.length_append, List.map_cons,
        List.map_nil, List.length_cons, List.length_nil]
      rw [hidx, hcount, List.range_succ]
    · rw [hchunks, hcnt, hcount]
      simp
  · have hchunks : (chunkStep text cfg s).chunks = s.chunks := by
      simp [chunkStep, hpush]
    have hcnt : (chunkStep text cfg s).chunkIndex = s.chunkIndex := by
      simp [chunkStep, hpush]
    rw [hchunks, hcnt]
    exact ⟨hgood, hidx, hcount⟩

/-- The loop propagates the invariant to its final chunk list. -/
theorem chunkLoop_invariant (text : List Char) (cfg : ChunkConfig) :
    ∀ (fuel : ℕ) (s : ChunkState) (chunks : List TextChunk),
      (∀ c ∈ s.chunks,
        c.content = jsTrim (jsSubstring text c.startChar c.endChar) ∧
          c.content ≠ []) →
      s.chunks.map (fun c => c.chunkIndex) = List.range s.chunks.length →
      s.chunkIndex = s.chunks.length →
      chunkLoop text cfg fuel s = some chunks →
      (∀ c ∈ chunks,
        c.content = jsTrim (jsSubstring text c.startChar c.endChar) ∧
          c.content ≠ []) ∧
      chunks.map (fun c => c.chunkIndex) = List.range chunks.length := by
  intro fuel
  induction fuel with
  | zero =>
    intro s chunks _ _ _ hloop
    exact absurd hloop (by simp [chunkLoop])
  | succ n ih =>
    intro s chunks hgood hidx hcount hloop
    rw [chunkLoop] at hloop
    by_cases hlt : s.startIndex < (text.length : Int)
    · rw [if_pos hlt] at hloop
      obtain ⟨g1, g2, g3⟩ := chunkStep_invariant text cfg s hgood hidx hcount
      exact ih _ _ g1 g2 g3 hloop
    · rw [if_neg hlt] at hloop
      obtain rfl : s.chunks = chunks := by simpa using hloop
      exact ⟨hgood, hidx⟩

/-- C10: whenever `chunkText` terminates (with `chunkSize ≥ 1`, as every
real configuration has), every emitted chunk's content is the non-empty
trimmed text of its recorded window `[startChar, endChar)`, and the
`chunkIndex` values are exactly `0, 1, …, n−1` in emission order (windows
that trim to empty are skipped without consuming an index). -/
theorem chunkText_chunk_invariants (text : List Char) (cfg : ChunkConfig)
    (fuel : ℕ) (chunks : List TextChunk) (hsize : 1 ≤ cfg.chunkSize)
    (hout : chunkText fuel text cfg = some chunks) :
    (∀ c ∈ chunks,
      c.content = jsTrim (jsSubstring text c.startChar c.endChar) ∧
        c.content ≠ []) ∧
    chunks.map (fun c => c.chunkIndex) = List.range chunks.length := by
  rw [chunkText] at hout
  by_cases hempty : text = [] ∨ (jsTrim text).length = 0
  · rw [if_pos hempty] at hout
    obtain rfl : chunks = [] := by simpa using hout.symm
    simp
  · rw [if_neg hempty] at hout
    exact chunkLoop_invariant text cfg fuel ⟨[], 0, 0⟩ chunks (by simp)
      (by simp) (by simp) hout

/-- Witness for C10 at a concrete input: `"hi"` under the default
configuration. -/
theorem chunkText_chunk_invariants_witness :
    ((1 : Int) ≤ DEFAULT_CHUNK_CONFIG.chunkSize) ∧
    chunkText 5 ("hi".toList) DEFAULT_CHUNK_CONFIG =
      some [⟨"hi".toList, 0, 0, 2⟩] ∧
    ((∀ c ∈ [(⟨"hi".toList, 0, 0, 2⟩ : TextChunk)],
      c.content = jsTrim (jsSubstring ("hi".toList) c.startChar c.endChar) ∧
        c.content ≠ []) ∧
    ([(⟨"hi".toList, 0, 0, 2⟩ : TextChunk)]).map (fun c => c.chunkIndex) =
      List.range ([(⟨"hi".toList, 0, 0, 2⟩ : TextChunk)]).length) :=
  ⟨by decide, by decide,
    chunkText_chunk_invariants ("hi".toList) DEFAULT_CHUNK_CONFIG 5
      [⟨"hi".toList, 0, 0, 2⟩] (by decide) (by decide)⟩

/-! ## The RRF score map: claim C2 and supporting lemmas -/

/-- Fusing one ranked list into an accumulator map adds exactly that list's
contribution to every id. -/
theorem rrfFold_mapGetD (k : ℚ) (l : List RankedResult)
    (m : List (String × ℚ)) (id : String) :
    mapGetD (l.foldl (fun m item =>
        mapSet m item.id ((mapGet m item.id).getD 0 + 1 / (k + item.rank))) m)
        id =
      mapGetD m id + rrfContribution k l id := by
  induction l generalizing m with
  | nil => simp [rrfContribution]
  | cons it rest ih =>
    rw [List.foldl_cons, ih]
    have hset : mapGetD (mapSet m it.id
        ((mapGet m it.id).getD 0 + 1 / (k + it.rank))) id =
        if it.id = id then mapGetD m it.id + 1 / (k + it.rank)
        else mapGetD m id := by
      rw [mapGetD, mapGet_mapSet]
      by_cases h : it.id = id <;> simp [h, mapGetD]
    rw [hset]
    by_cases h : it.id = id
    · subst h
      simp only [if_pos rfl, rrfContribution, List.filter_cons, decide_eq_true_eq,
        if_pos rfl]
      simp [rrfContribution] at *
      ring
    · simp only [if_neg h, rrfContribution, List.filter_cons]
      simp [h]

/-- The fused score of an id is the sum of the two stages'
contributions. -/
theorem fusedScores_mapGetD (sem : List SimilarChunk) (fts : List FtsChunk)
    (id : String) :
    mapGetD (fusedScores sem fts) id =
      rrfContribution RRF_K (semanticRanked sem) id +
        rrfContribution RRF_K (ftsRanked fts) id := by
  rw [fusedScores, reciprocalRankFusion]
  simp only [List.foldl_cons, List.foldl_nil]
  rw [rrfFold_mapGetD, rrfFold_mapGetD]
  simp [mapGetD, mapGet]

/-- An id that occurs in no chunk of the stage contributes nothing. -/
theorem rrfContribution_buildRanked_not_mem (k : ℚ) :
    ∀ (start : ℕ) (sem : List SimilarChunk) (id : String),
      id ∉ sem.map (fun c => c.id) →
      rrfContribution k (buildRanked start sem) id = 0 := by
  intro start sem
  induction sem generalizing start with
  | nil => intro id _; simp [buildRanked, rrfContribution]
  | cons c rest ih =>
    intro id hid
    simp only [List.map_cons, List.mem_cons, not_or] at hid
    have hne : ¬ c.id = id := fun h => hid.1 h.symm
    simp only [buildRanked, rrfContribution, List.filter_cons, decide_eq_true_eq]
    simp only [hne, if_false]
    exact ih (start + 1) id hid.2

/-- Same statement for the lexical-stage construction. -/
theorem rrfContribution_buildRankedFts_not_mem (k : ℚ) :
    ∀ (start : ℕ) (fts : List FtsChunk) (id : String),
      id ∉ fts.map (fun c => c.chunk.id) →
      rrfContribution k (buildRankedFts start fts) id = 0 := by
  intro start fts
  induction fts generalizing start with
  | nil => intro id _; simp [buildRankedFts, rrfContribution]
  | cons c rest ih =>
    intro id hid
    simp only [List.map_cons, List.mem_cons, not_or] at hid
    have hne : ¬ c.chunk.id = id := fun h => hid.1 h.symm
    simp only [buildRankedFts, rrfContribution, List.filter_cons, decide_eq_true_eq]
    simp only [hne, if_false]
    exact ih (start + 1) id hid.2

/-- Splitting a ranked list's contribution at its head. -/
theorem rrfContribution_cons (k : ℚ) (it : RankedResult)
    (l : List RankedResult) (id : String) :
    rrfContribution k (it :: l) id =
      (if it.id = id then 1 / (k + it.rank) else 0) +
        rrfContribution k l id := by
  by_cases h : it.id = id <;> simp [rrfContribution, List.filter_cons, h]

/-- With duplicate-free ids, a stage's contribution is `1 / (k + rank)` at
the id's position, `0` for absent ids. -/
theorem rrfContribution_buildRanked (k : ℚ) :
    ∀ (start : ℕ) (sem : List SimilarChunk) (id : String),
      (sem.map (fun c => c.id)).Nodup →
      rrfContribution k (buildRanked start sem) id =
        positionScore k start (sem.map (fun c => c.id)) id := by
  intro start sem
  induction sem generalizing start with
  | nil => intro id _; simp [buildRanked, rrfContribution, positionScore]
  | cons c rest ih =>
    intro id hnd
    have hnd2 : (c.id :: rest.map (fun c => c.id)).Nodup := by simpa using hnd
    have hmem : c.id ∉ rest.map (fun c => c.id) := (List.nodup_cons.mp hnd2).1
    have htail : (rest.map (fun c => c.id)).Nodup := (List.nodup_cons.mp hnd2).2
    rw [buildRanked, rrfContribution_cons]
    by_cases h : c.id = id
    · subst h
      rw [rrfContribution_buildRanked_not_mem k (start + 1) rest c.id hmem]
      simp [positionScore, List.findIdx?_cons]
    · rw [ih (start + 1) id htail]
      simp only [positionScore, List.map_cons, List.findIdx?_cons]
      have hne : ¬ (decide (c.id = id) = true) := by simp [h]
      simp only [show ((⟨c.id, start, c.similarity⟩ : RankedResult).id = id) =
        (c.id = id) from rfl, if_neg h, zero_add, hne, if_false]
      rw [List.findIdx?_succ]
      cases hidx : (rest.map (fun c => c.id)).findIdx? (fun x => x = id) with
      | none => simp
      | some i =>
        simp only [Option.map]
        push_cast
        ring_nf

/-- Same statement for the lexical stage. -/
theorem rrfContribution_buildRankedFts (k : ℚ) :
    ∀ (start : ℕ) (fts : List FtsChunk) (id : String),
      (fts.map (fun c => c.chunk.id)).Nodup →
      rrfContribution k (buildRankedFts start fts) id =
        positionScore k start (fts.map (fun c => c.chunk.id)) id := by
  intro start fts
  induction fts generalizing start with
  | nil => intro id _; simp [buildRankedFts, rrfContribution, positionScore]
  | cons c rest ih =>
    intro id hnd
    have hnd2 : (c.chunk.id :: rest.map (fun c => c.chunk.id)).Nodup := by
      simpa using hnd
    have hmem : c.chunk.id ∉ rest.map (fun c => c.chunk.id) :=
      (List.nodup_cons.mp hnd2).1
    have htail : (rest.map (fun c => c.chunk.id)).Nodup :=
      (List.nodup_cons.mp hnd2).2
    rw [buildRankedFts, rrfContribution_cons]
    by_cases h : c.chunk.id = id
    · subst h
      rw [rrfContribution_buildRankedFts_not_mem k (start + 1) rest c.chunk.id
        hmem]
      simp [positionScore, List.findIdx?_cons]
    · rw [ih (start + 1) id htail]
      simp only [positionScore, List.map_cons, List.findIdx?_cons]
      have hne : ¬ (decide (c.chunk.id = id) = true) := by simp [h]
      simp only [show ((⟨c.chunk.id, start, c.rank⟩ : RankedResult).id = id) =
        (c.chunk.id = id) from rfl, if_neg h, zero_add, hne, if_false]
      rw [List.findIdx?_succ]
      cases hidx : (rest.map (fun c => c.chunk.id)).findIdx? (fun x => x = id)
        with
      | none => simp
      | some i =>
        simp only [Option.map]
        push_cast
        ring_nf

/-- C2: when each stage's ranked list has duplicate-free ids (as database
rows keyed by primary key do), the fused score of a chunk id is exactly
`Σ over the stages containing it of 1 / (60 + rank)`, with rank its 1-based
position in the stage's list. -/
theorem fusedScore_formula (sem : List SimilarChunk) (fts : List FtsChunk)
    (id : String) (hsem : (sem.map (fun c => c.id)).Nodup)
    (hfts : (fts.map (fun c => c.chunk.id)).Nodup) :
    mapGetD (fusedScores sem fts) id = specFusedScore sem fts id := by
  rw [fusedScores_mapGetD, semanticRanked, ftsRanked,
    rrfContribution_buildRanked RRF_K 1 sem id hsem,
    rrfContribution_buildRankedFts RRF_K 1 fts id hfts,
    specFusedScore, RRF_K]

/-- Witness for C2: a chunk ranked 1 in both stages scores exactly
`2 / 61`. -/
theorem fusedScore_formula_witness :
    (([⟨"a", "d", [], 1⟩] : List SimilarChunk).map (fun c => c.id)).Nodup ∧
    (([⟨⟨"a", "d", [], 1⟩, 1⟩] : List FtsChunk).map
      (fun c => c.chunk.id)).Nodup ∧
    mapGetD (fusedScores [⟨"a", "d", [], 1⟩] [⟨⟨"a", "d", [], 1⟩, 1⟩]) "a" =
      2 / 61 :=
  ⟨by decide, by decide,
    by
      rw [fusedScore_formula _ _ _ (by decide) (by decide)]
      simp [specFusedScore, positionScore, List.findIdx?_cons]
      norm_num⟩

/-! ## Claim C1: the output contract of the hybrid ranker -/

/-- A lookup hit is an entry of the association list. -/
theorem mapGet_mem {α : Type} :
    ∀ (m : List (String × α)) (k : String) (v : α),
      mapGet m k = some v → (k, v) ∈ m := by
  intro m
  induction m with
  | nil => intro k v h; simp [mapGet] at h
  | cons p rest ih =>
    intro k v h
    obtain ⟨a, b⟩ := p
    by_cases hak : a = k
    · subst hak
      rw [mapGet, if_pos rfl] at h
      obtain rfl : b = v := by simpa using h
      exact List.mem_cons_self _ _
    · rw [mapGet, if_neg hak] at h
      exact List.mem_cons_of_mem _ (ih k v h)

/-- Every entry of the `chunkMap` stores a chunk under its own id. -/
theorem chunkMapOf_entries (sem : List SimilarChunk) (fts : List FtsChunk) :
    ∀ p ∈ chunkMapOf sem fts, p.2.id = p.1 := by
  have aux1 : ∀ (l : List SimilarChunk) (m : List (String × SimilarChunk)),
      (∀ p ∈ m, p.2.id = p.1) →
      ∀ p ∈ l.foldl (fun m c => mapSet m c.id c) m, p.2.id = p.1 := by
    intro l
    induction l with
    | nil => intro m hm; exact hm
    | cons c rest ih =>
      intro m hm
      rw [List.foldl_cons]
      refine ih _ ?_
      intro q hq
      rcases mem_mapSet m c.id c q hq with rfl | hmem
      · rfl
      · exact hm q hmem
  have aux2 : ∀ (l : List FtsChunk) (m : List (String × SimilarChunk)),
      (∀ p ∈ m, p.2.id = p.1) →
      ∀ p ∈ l.foldl (fun m c =>
          if (mapGet m c.chunk.id).isSome then m
          else mapSet m c.chunk.id c.chunk) m, p.2.id = p.1 := by
    intro l
    induction l with
    | nil => intro m hm; exact hm
    | cons c rest ih =>
      intro m hm
      rw [List.foldl_cons]
      refine ih _ ?_
      by_cases hs : (mapGet m c.chunk.id).isSome
      · simpa [hs] using hm
      · simp only [hs, if_false]
        intro q hq
        rcases mem_mapSet m c.chunk.id c.chunk q hq with rfl | hmem
        · rfl
        · exact hm q hmem
  exact aux2 fts _ (aux1 sem [] (by simp))

/-- The keys of the `chunkMap` built folds stay duplicate-free; combined
with `chunkMapOf_entries`, a hit at key `k` is a chunk whose id is `k`. -/
theorem mapGet_chunkMapOf (sem : List SimilarChunk) (fts : List FtsChunk)
    (k : String) (c : SimilarChunk)
    (h : mapGet (chunkMapOf sem fts) k = some c) : c.id = k :=
  chunkMapOf_entries sem fts (k, c) (mapGet_mem _ k c h)

/-- Folding a ranked list into the score map keeps its keys
duplicate-free. -/
theorem nodup_keys_rrfFold (k : ℚ) :
    ∀ (l : List RankedResult) (m : List (String × ℚ)),
      (m.map Prod.fst).Nodup →
      ((l.foldl (fun m item =>
          mapSet m item.id ((mapGet m item.id).getD 0 + 1 / (k + item.rank)))
          m).map Prod.fst).Nodup := by
  intro l
  induction l with
  | nil => intro m hm; exact hm
  | cons it rest ih =>
    intro m hm
    rw [List.foldl_cons]
    exact ih _ (nodup_keys_mapSet m it.id _ hm)

/-- The fused score map never carries a key twice. -/
theorem nodup_keys_fusedScores (sem : List SimilarChunk)
    (fts : List FtsChunk) : ((fusedScores sem fts).map Prod.fst).Nodup := by
  rw [fusedScores, reciprocalRankFusion]
  simp only [List.foldl_cons, List.foldl_nil]
  exact nodup_keys_rrfFold RRF_K (ftsRanked fts) _
    (nodup_keys_rrfFold RRF_K (semanticRanked sem) [] (by simp))

/-- The merged list (RRF entries mapped back through the `chunkMap`) has no
duplicate chunk ids. -/
theorem merged_pairwise_ne (sem : List SimilarChunk) (fts : List FtsChunk) :
    ((fusedScores sem fts).filterMap
      (fun p => mapGet (chunkMapOf sem fts) p.1)).Pairwise
      (fun a b => a.id ≠ b.id) := by
  have hnd := nodup_keys_fusedScores sem fts
  have hpair : (fusedScores sem fts).Pairwise (fun p q => p.1 ≠ q.1) :=
    List.pairwise_map.mp hnd
  rw [List.pairwise_filterMap]
  refine hpair.imp ?_
  intro p q hpq x hx y hy
  rw [mapGet_chunkMapOf sem fts p.1 x hx, mapGet_chunkMapOf sem fts q.1 y hy]
  exact hpq

/-- `fuseStage` satisfies the full output contract, with no hypotheses on
the stage lists. -/
theorem fuseStage_contract (sem : List SimilarChunk) (fts : List FtsChunk)
    (limit : ℕ) :
    rankedOutputContract (fuseStage sem fts limit) (fusedScores sem fts)
      limit := by
  have hperm := List.mergeSort_perm
    ((fusedScores sem fts).filterMap (fun p => mapGet (chunkMapOf sem fts) p.1))
    (fun a b => decide (mapGetD (fusedScores sem fts) b.id ≤
      mapGetD (fusedScores sem fts) a.id))
  refine ⟨?_, ?_, ?_⟩
  · exact List.length_take_le _ _
  · refine List.Pairwise.sublist (List.take_sublist _ _) ?_
    have hsymm : ∀ {x y : SimilarChunk}, x.id ≠ y.id → y.id ≠ x.id :=
      fun h => fun hc => h hc.symm
    exact (List.Perm.pairwise_iff hsymm hperm).mpr (merged_pairwise_ne sem fts)
  · refine List.Pairwise.sublist (List.take_sublist _ _) ?_
    have hs := @List.sorted_mergeSort SimilarChunk
      (fun a b => decide (mapGetD (fusedScores sem fts) b.id ≤
        mapGetD (fusedScores sem fts) a.id))
      (fun a b c hab hbc => by
        simp only [decide_eq_true_eq] at *
        exact le_trans hbc hab)
      (fun a b => by
        simp only [Bool.or_eq_true, decide_eq_true_eq]
        exact le_total _ _)
      ((fusedScores sem fts).filterMap (fun p => mapGet (chunkMapOf sem fts) p.1))
    exact hs.imp (fun h => by simpa using h)

/-- In a duplicate-free list, searching for the element at position `i`
finds exactly position `i` (stated with a running accumulator). -/
theorem findIdx?_self_of_nodup :
    ∀ (ids : List String), ids.Nodup → ∀ (i : ℕ) (hi : i < ids.length) (j : ℕ),
      ids.findIdx? (fun x => x = ids.get ⟨i, hi⟩) j = some (i + j) := by
  intro ids
  induction ids with
  | nil => intro _ i hi; exact absurd hi (by simp)
  | cons a rest ih =>
    intro hnd i hi j
    cases i with
    | zero => simp [List.findIdx?_cons]
    | succ n =>
      have hmem : a ∉ rest := (List.nodup_cons.mp hnd).1
      have hget : rest.get ⟨n, by simpa using hi⟩ ∈ rest := List.get_mem _ _ _
      have hne : ¬ a = rest.get ⟨n, by simpa using hi⟩ := by
        intro h
        exact hmem (h ▸ hget)
      rw [List.findIdx?_cons]
      simp only [show (a :: rest).get ⟨n + 1, hi⟩ =
        rest.get ⟨n, by simpa using hi⟩ from rfl]
      rw [if_neg (by simpa using hne)]
      rw [ih (List.nodup_cons.mp hnd).2 n (by simpa using hi) (j + 1)]
      have harith : n + (j + 1) = n + 1 + j := by omega
      rw [harith]

/-- The vector-stage list is itself sorted descending for the score map of
a fusion with an empty lexical stage, and has no duplicate ids; therefore
its truncation satisfies the output contract.  (This is the skip path.) -/
theorem take_contract (sem : List SimilarChunk) (limit : ℕ)
    (hsem : (sem.map (fun c => c.id)).Nodup) :
    rankedOutputContract (sem.take limit) (fusedScores sem []) limit := by
  refine ⟨List.length_take_le _ _, ?_, ?_⟩
  · exact List.Pairwise.sublist (List.take_sublist _ _)
      (List.pairwise_map.mp hsem)
  · refine List.Pairwise.sublist (List.take_sublist _ _) ?_
    have key : ∀ (i : ℕ) (hi : i < sem.length),
        mapGetD (fusedScores sem []) (sem.get ⟨i, hi⟩).id =
          1 / (RRF_K + 1 + i) := by
      intro i hi
      rw [fusedScores_mapGetD, semanticRanked,
        rrfContribution_buildRanked RRF_K 1 sem _ hsem]
      have hzero : rrfContribution RRF_K (ftsRanked []) (sem.get ⟨i, hi⟩).id = 0 := by
        simp [ftsRanked, buildRankedFts, rrfContribution]
      rw [hzero, add_zero]
      have hget : (sem.map (fun c => c.id)).get ⟨i, by simpa using hi⟩ =
          (sem.get ⟨i, hi⟩).id := by
        simp
      rw [positionScore, ← hget,
        findIdx?_self_of_nodup _ hsem i (by simpa using hi) 0]
      push_cast
      ring_nf
    rw [List.pairwise_iff_get]
    intro i j hij
    rw [key i i.isLt, key j j.isLt]
    have h1 : (0:ℚ) < RRF_K + 1 + i := by
      rw [RRF_K]
      positivity
    refine one_div_le_one_div_of_le h1 ?_
    have : (i : ℚ) ≤ (j : ℚ) := by exact_mod_cast le_of_lt hij
    linarith

/-- C1: for every query — any vector-stage response with duplicate-free
chunk ids (database rows), any lexical oracle, any query text, any limit,
with or without a document scope — the hybrid search output has length at
most `limit`, contains each chunk id at most once (even when an id occurs
in both stage lists), and is sorted by fused RRF score in descending
order. -/
theorem hybridSearch_output_contract (sem : List SimilarChunk)
    (ftsOracleKw : List (List Char) → List FtsChunk)
    (ftsOracleTs : List Char → List FtsChunk) (documentIds : List String)
    (queryText : List Char) (limit : ℕ)
    (hsem : (sem.map (fun c => c.id)).Nodup) :
    rankedOutputContract (hybridSearchModel sem ftsOracleKw queryText limit).1
      (fusedScores sem (usedFts ftsOracleKw queryText)) limit ∧
    rankedOutputContract
      (hybridSearchInDocumentsModel documentIds sem ftsOracleKw ftsOracleTs
        queryText limit).1
      (fusedScores sem
        (usedFtsInDocuments documentIds ftsOracleKw ftsOracleTs queryText))
      limit := by
  have main : rankedOutputContract
      (hybridSearchModel sem ftsOracleKw queryText limit).1
      (fusedScores sem (usedFts ftsOracleKw queryText)) limit := by
    by_cases hkw : hybridKeywords queryText = []
    · rw [hybridSearchModel, if_pos hkw, usedFts, if_pos hkw]
      exact take_contract sem limit hsem
    · rw [hybridSearchModel, if_neg hkw, usedFts, if_neg hkw]
      exact fuseStage_contract sem (ftsOracleKw (hybridKeywords queryText)) limit
  refine ⟨main, ?_⟩
  by_cases hdoc : documentIds = []
  · rw [hybridSearchInDocumentsModel, if_pos hdoc, usedFtsInDocuments,
      if_pos hdoc]
    exact main
  · rw [hybridSearchInDocumentsModel, if_neg hdoc, usedFtsInDocuments,
      if_neg hdoc]
    by_cases hq : tsQueryStr queryText = []
    · rw [if_pos hq, usedFtsScoped, if_pos hq]
      exact take_contract sem limit hsem
    · rw [if_neg hq, usedFtsScoped, if_neg hq]
      exact fuseStage_contract sem (ftsOracleTs (tsQueryStr queryText)) limit

/-- Witness for C1 at a concrete input: two vector-stage chunks, an overlap
with the lexical stage, scoped and unscoped. -/
theorem hybridSearch_output_contract_witness :
    (([⟨"a", "d", [], 1⟩, ⟨"b", "d", [], 1⟩] : List SimilarChunk).map
      (fun c => c.id)).Nodup ∧
    rankedOutputContract
      (hybridSearchModel [⟨"a", "d", [], 1⟩, ⟨"b", "d", [], 1⟩]
        (fun _ => [⟨⟨"b", "d", [], 1⟩, 1⟩]) ("hello world".toList) 1).1
      (fusedScores [⟨"a", "d", [], 1⟩, ⟨"b", "d", [], 1⟩]
        (usedFts (fun _ => [⟨⟨"b", "d", [], 1⟩, 1⟩]) ("hello world".toList)))
      1 ∧
    rankedOutputContract
      (hybridSearchInDocumentsModel ["doc1"]
        [⟨"a", "d", [], 1⟩, ⟨"b", "d", [], 1⟩]
        (fun _ => [⟨⟨"b", "d", [], 1⟩, 1⟩])
        (fun _ => [⟨⟨"b", "d", [], 1⟩, 1⟩]) ("hello world".toList) 1).1
      (fusedScores [⟨"a", "d", [], 1⟩, ⟨"b", "d", [], 1⟩]
        (usedFtsInDocuments ["doc1"] (fun _ => [⟨⟨"b", "d", [], 1⟩, 1⟩])
          (fun _ => [⟨⟨"b", "d", [], 1⟩, 1⟩]) ("hello world".toList)))
      1 :=
  ⟨by decide,
    (hybridSearch_output_contract [⟨"a", "d", [], 1⟩, ⟨"b", "d", [], 1⟩]
      (fun _ => [⟨⟨"b", "d", [], 1⟩, 1⟩]) (fun _ => [⟨⟨"b", "d", [], 1⟩, 1⟩])
      ["doc1"] ("hello world".toList) 1 (by decide)).1,
    (hybridSearch_output_contract [⟨"a", "d", [], 1⟩, ⟨"b", "d", [], 1⟩]
      (fun _ => [⟨⟨"b", "d", [], 1⟩, 1⟩]) (fun _ => [⟨⟨"b", "d", [], 1⟩, 1⟩])
      ["doc1"] ("hello world".toList) 1 (by decide)).2⟩

end Rag
